import Mathlib

/-!
Shallow embedding of `src/trunk/scripts/heatmap30320111008.py`, a Python 2
heat-map generator.  The script reads an event file (one `x,y` position per
line), counts occurrences of identical raw lines, and, for each unique
location, stamps a marker onto a canvas via ImageMagick with a whitening
factor derived from the location's relative frequency.

The embedding models:
  - Python's file line iteration (`for location in file`), which yields each
    line with its terminating newline kept, and a final unterminated line
    without one (`pythonLines`);
  - the aggregation loop building `uniqueLocations` and `maxRepetitions`;
  - Python 2's builtin `int()` applied to a string (strips surrounding
    whitespace, optional sign, then decimal digits only — a fractional part
    is a `ValueError`), as `pyInt`;
  - Python's builtin `float()` over sign / digits / optional fractional part
    (`pyFloat`; the exponent and inf/nan forms are not needed by any claim);
  - the per-location placement arithmetic (Python 2 `/` on ints is floor
    division, hence `Int.fdiv`) and the stamp/skip decision, with the float
    opacity arithmetic modelled exactly over `ℚ`;
  - the ImageMagick stamp invocation abstracted as a `StampOp` record
    (offset and `-colorize` whitening percentage), since the pixel work is
    delegated to the external tool.
-/

/-- One digit character's numeric value. -/
def digitVal (c : Char) : Nat := c.toNat - 48

/-- Value of a list of decimal digit characters, most significant first. -/
def digitsVal (cs : List Char) : Nat :=
  cs.foldl (fun a c => a * 10 + digitVal c) 0

/-- Parse a non-empty all-digit character list to a `Nat`; `none` otherwise. -/
def parseNatDigits (cs : List Char) : Option Nat :=
  if cs.isEmpty then none
  else if cs.all Char.isDigit then some (digitsVal cs) else none

/-- Drop leading whitespace characters. -/
def dropLeadingWs : List Char → List Char
  | [] => []
  | c :: cs => if c.isWhitespace then dropLeadingWs cs else c :: cs

/-- Strip whitespace from both ends, as Python's `int()`/`float()` do before
parsing. -/
def stripWs (cs : List Char) : List Char :=
  dropLeadingWs ((dropLeadingWs cs.reverse).reverse)

/-- Sign-and-digits core of Python's `int()`: an optional single leading
sign, then decimal digits (the empty string is a parse error). -/
def pyIntChars : List Char → Option Int
  | [] => none
  | c :: rest =>
      if c = '-' then (parseNatDigits rest).map fun n => -(n : Int)
      else if c = '+' then (parseNatDigits rest).map fun n => (n : Int)
      else (parseNatDigits (c :: rest)).map fun n => (n : Int)

/-- Python 2's builtin `int(s)` on a string: surrounding whitespace stripped,
optional single sign, then decimal digits.  `int("1.5")` raises `ValueError`
(modelled as `none`): a fractional part is not accepted. -/
def pyInt (s : String) : Option Int := pyIntChars (stripWs s.data)

/-- Mantissa of Python's `float()`: digits with an optional `.` and optional
fractional digits (at least one digit overall). -/
def pyFloatMantissa (cs : List Char) : Option ℚ :=
  let intPart := cs.takeWhile Char.isDigit
  let rest := cs.dropWhile Char.isDigit
  match rest with
  | [] => if intPart.isEmpty then none else some (digitsVal intPart)
  | '.' :: frac =>
      if frac.all Char.isDigit ∧ (intPart ≠ [] ∨ frac ≠ []) then
        some ((digitsVal intPart : ℚ) + (digitsVal frac : ℚ) / 10 ^ frac.length)
      else none
  | _ => none

/-- Python's builtin `float(s)` over the sign/digits/fraction forms (the
exponent, `inf` and `nan` forms are outside what any claim exercises; a
malformed string raises `ValueError`, modelled as `none`). -/
def pyFloat (s : String) : Option ℚ :=
  match stripWs s.data with
  | [] => none
  | c :: rest =>
      if c = '-' then (pyFloatMantissa rest).map Neg.neg
      else if c = '+' then pyFloatMantissa rest
      else pyFloatMantissa (c :: rest)

/-- `scale` selection in `main`: `scale = 1.0`, overwritten by
`float(argv[4])` when `len(argv) > 4`; a parse failure aborts the run. -/
def scaleOf (argv : List String) : Option ℚ :=
  if 4 < argv.length then pyFloat (argv.getD 4 "") else some 1

/-- Python file line iteration: each line keeps its `\n`; a final line
without a terminator is yielded as-is; an empty file yields nothing.
`acc` holds the current line's characters in reverse. -/
def splitLinesAux : List Char → List Char → List String
  | [], acc => if acc.isEmpty then [] else [String.mk acc.reverse]
  | c :: cs, acc =>
      if c = '\n' then String.mk (acc.reverse ++ ['\n']) :: splitLinesAux cs []
      else splitLinesAux cs (c :: acc)

/-- The lines of the event file as `for location in file` yields them. -/
def pythonLines (s : String) : List String := splitLinesAux s.data []

/-- `location.split(",")`: split on every comma; always at least one piece.
`acc` holds the current piece's characters in reverse. -/
def splitCommaAux : List Char → List Char → List String
  | [], acc => [String.mk acc.reverse]
  | c :: cs, acc =>
      if c = ',' then String.mk acc.reverse :: splitCommaAux cs []
      else splitCommaAux cs (c :: acc)

/-- `location.split(",")` on a location key. -/
def splitComma (s : String) : List String := splitCommaAux s.data []

/-- `uniqueLocations[location] = 1` on first sight, `+= 1` afterwards:
bump the count of key `k` in the insertion-ordered association list. -/
def bump : List (String × Nat) → String → List (String × Nat)
  | [], k => [(k, 1)]
  | (k', v) :: rest, k =>
      if k' = k then (k', v + 1) :: rest else (k', v) :: bump rest k

/-- `uniqueLocations[location]`: the count stored for key `k` (0 if absent;
the script only reads keys it has inserted). -/
def lookupCount : List (String × Nat) → String → Nat
  | [], _ => 0
  | (k', v) :: rest, k => if k' = k then v else lookupCount rest k

/-- One iteration of the reading loop: insert/increment the location, then
`if uniqueLocations[location] > maxRepetitions: maxRepetitions = ...`. -/
def aggStep (st : List (String × Nat) × Nat) (location : String) :
    List (String × Nat) × Nat :=
  let m := bump st.1 location
  let c := lookupCount m location
  (m, if st.2 < c then c else st.2)

/-- The whole aggregation phase: fold the reading loop over the lines,
starting from `uniqueLocations = {}`, `maxRepetitions = 0`. -/
def aggregate (lines : List String) : List (String × Nat) × Nat :=
  lines.foldl aggStep ([], 0)

/-- Maximum of the stored counts (0 for the empty mapping). -/
def maxCounts : List (String × Nat) → Nat
  | [] => 0
  | (_, v) :: rest => max v (maxCounts rest)

/-- Sum of the stored counts. -/
def sumCounts (m : List (String × Nat)) : Nat := (m.map Prod.snd).sum

/-- `contribution = float(weight) / maxRepetitions * scale`, the opacity
contribution before inversion, modelled over `ℚ`. -/
def contribution (weight maxRepetitions : Nat) (scale : ℚ) : ℚ :=
  ((weight : ℚ) / (maxRepetitions : ℚ)) * scale

/-- Placement of the 64x64 spot for a location key on a canvas of height
`H`: `x = int(xy[0]) / 2 - 32`, `y = (H - int(xy[1]) / 2) - 32`, Python 2
floor division.  `none` models the run aborting on a malformed line
(too few comma-separated fields, or `int()` raising `ValueError`). -/
def placement (H : Int) (location : String) : Option (Int × Int) :=
  match splitComma location with
  | sx :: sy :: _ =>
      match pyInt sx, pyInt sy with
      | some x, some y => some (x.fdiv 2 - 32, (H - y.fdiv 2) - 32)
      | _, _ => none
  | _ => none

/-- One ImageMagick stamp invocation: the `-geometry` offset and the
`-colorize` whitening percentage applied to `spot.png` before the
multiply-composite onto `empty.miff`. -/
structure StampOp where
  px : Int
  py : Int
  colorizePct : ℚ
deriving DecidableEq, Repr

/-- The body of the per-location loop: parse the key, compute the inverted
contribution, and stamp iff it is strictly positive.  `none` models the run
aborting on a parse failure; `some none` a skipped stamp; `some (some op)`
an executed stamp. -/
def stampOf (H : Int) (scale : ℚ) (location : String) (weight maxRepetitions : Nat) :
    Option (Option StampOp) :=
  match placement H location with
  | none => none
  | some (px, py) =>
      let c := 1 - contribution weight maxRepetitions scale
      if 0 < c then some (some ⟨px, py, c * 100⟩) else some none

/-- The per-location loop over the aggregated mapping, collecting the stamp
operations executed in order; aborts (`none`) at the first malformed key. -/
def compositeAll (H : Int) (scale : ℚ) (M : Nat) :
    List (String × Nat) → Option (List StampOp)
  | [] => some []
  | (location, weight) :: rest =>
      match stampOf H scale location weight M with
      | none => none
      | some none => compositeAll H scale M rest
      | some (some op) => (compositeAll H scale M rest).map (op :: ·)

/-- `GenerateHeatMap`, restricted to the computations the script itself
performs: aggregate the event file's lines, then run the compositing loop.
The colorize and blend phases are single external invocations with no
program logic and are not modelled. -/
def GenerateHeatMap (contents : String) (H : Int) (scale : ℚ) :
    Option (List StampOp) :=
  let agg := aggregate (pythonLines contents)
  compositeAll H scale agg.2 agg.1

/-! ### Helper lemmas -/

theorem stampOf_of_placement (H : Int) (scale : ℚ) (location : String)
(weight M : Nat) (px py : Int) (hp : placement H location = some (px, py)) :
stampOf H scale location weight M =
      if 0 < 1 - contribution weight M scale then
        some (some ⟨px, py, (1 - contribution weight M scale) * 100⟩)
      else some none := by
  unfold stampOf
  rw [hp]

theorem stampOf_of_no_placement (H : Int) (scale : ℚ) (location : String)
(weight M : Nat) (hp : placement H location = none) :
stampOf H scale location weight M = none := by
  unfold stampOf
  rw [hp]

/-! ### C1, C3, C9, C6 -/

/-- C1: for a unique location whose key parses to a placement, the
multiply-composite stamp is executed if and only if the whitening factor
`1 - (weight / maxRepetitions) * scale` is strictly positive, and the stamp
step is skipped exactly when `1 - contribution ≤ 0`. -/
theorem stamp_iff_whitening_pos (H : Int) (scale : ℚ) (location : String)
(weight M : Nat) (p : Int × Int) (hp : placement H location = some p) :
(stampOf H scale location weight M =
        some (some ⟨p.1, p.2, (1 - contribution weight M scale) * 100⟩) ↔
      0 < 1 - contribution weight M scale) ∧
    (stampOf H scale location weight M = some none ↔
      1 - contribution weight M scale ≤ 0) := by
  obtain ⟨px, py⟩ := p
  rw [stampOf_of_placement H scale location weight M px py hp]
  by_cases h : 0 < 1 - contribution weight M scale
  · rw [if_pos h]
    refine ⟨⟨fun _ => h, fun _ => rfl⟩, ?_, ?_⟩
    · intro he; simp at he
    · intro hle; linarith
  · rw [if_neg h]
    push_neg at h
    refine ⟨⟨?_, ?_⟩, fun _ => h, fun _ => rfl⟩
    · intro he; simp at he
    · intro hlt; linarith

theorem stamp_iff_whitening_pos_witness :
(stampOf 100 1 "10,7\n" 1 2 =
        some (some ⟨-27, 65, (1 - contribution 1 2 1) * 100⟩) ↔
      0 < 1 - contribution 1 2 1) ∧
    (stampOf 100 1 "10,7\n" 1 2 = some none ↔
      1 - contribution 1 2 1 ≤ 0) :=
  stamp_iff_whitening_pos 100 1 "10,7\n" 1 2 (-27, 65) (by decide)

/-- C3: a location key whose comma-split yields exactly the two coordinate
strings, parsing to integers `x` and `y`, is placed at
`px = floor(x/2) - 32` and `py = (H - floor(y/2)) - 32` on a canvas of
height `H` (32 being half the fixed 64x64 marker). -/
theorem placement_formula (H : Int) (location sx sy : String) (x y : Int)
(hsplit : splitComma location = [sx, sy])
(hx : pyInt sx = some x) (hy : pyInt sy = some y) :
placement H location = some (x.fdiv 2 - 32, (H - y.fdiv 2) - 32) := by
  simp [placement, hsplit, hx, hy]

theorem placement_formula_witness :
placement 100 "10,7\n" = some ((10 : Int).fdiv 2 - 32, (100 - (7 : Int).fdiv 2) - 32) :=
  placement_formula 100 "10,7\n" "10" "7\n" 10 7 (by decide) (by decide) (by decide)

/-- C9: a location whose contribution `(weight / maxRepetitions) * scale`
reaches 1 is never stamped: the loop either aborts on a malformed key or
skips the stamp, so the hottest location contributes no marker when
`scale = 1`. -/
theorem saturated_location_not_stamped (H : Int) (scale : ℚ) (location : String)
(weight M : Nat) (h : 1 ≤ contribution weight M scale) :
stampOf H scale location weight M = none ∨
      stampOf H scale location weight M = some none := by
  cases hp : placement H location with
  | none => exact Or.inl (stampOf_of_no_placement H scale location weight M hp)
  | some p =>
      obtain ⟨px, py⟩ := p
      right
      rw [stampOf_of_placement H scale location weight M px py hp]
      rw [if_neg (by linarith)]

theorem saturated_location_not_stamped_witness :
stampOf 100 1 "10,7\n" 3 3 = none ∨ stampOf 100 1 "10,7\n" 3 3 = some none :=
  saturated_location_not_stamped 100 1 "10,7\n" 3 3 (by norm_num [contribution])

/-- C6: an empty event file yields no lines, aggregation leaves the mapping
empty and `maxRepetitions = 0`, and the compositing loop body (and with it
the division by `maxRepetitions`) is never evaluated: the pipeline completes
with no stamp operations and no division by zero. -/
theorem empty_file_no_division :
pythonLines "" = [] ∧ aggregate (pythonLines "") = ([], 0) ∧
      ∀ (H : Int) (scale : ℚ), GenerateHeatMap "" H scale = some [] :=
  ⟨rfl, rfl, fun _ _ => rfl⟩

/-! ### C5: monotonicity of the opacity contribution -/

/-- C5 counterexample: with `scale = -1` (a value `float(argv[4])` accepts),
doubling a location's count from 1 to 2 out of a maximum of 2 strictly
decreases its computed contribution. -/
theorem contribution_not_monotone_neg_scale :
contribution 2 2 (-1) < contribution 1 2 (-1) := by
  norm_num [contribution]

/-- C5 amended: for fixed nonnegative `scale`, the computed contribution
`(weight / maxRepetitions) * scale` is monotonic non-decreasing in the
location's count weight. -/
theorem contribution_monotone_nonneg_scale (w w' M : Nat) (scale : ℚ)
(hs : 0 ≤ scale) (hw : w ≤ w') :
contribution w M scale ≤ contribution w' M scale := by
  unfold contribution
  rcases Nat.eq_zero_or_pos M with h | h
  · subst h; simp
  · have hM : (0 : ℚ) < M := by exact_mod_cast h
    have h1 : (w : ℚ) ≤ (w' : ℚ) := by exact_mod_cast hw
    have h2 : (w : ℚ) / M ≤ (w' : ℚ) / M := by gcongr
    exact mul_le_mul_of_nonneg_right h2 hs

theorem contribution_monotone_nonneg_scale_witness :
contribution 1 3 1 ≤ contribution 2 3 1 :=
  contribution_monotone_nonneg_scale 1 2 3 1 (by norm_num) (by norm_num)

/-! ### C8: scale argument handling -/

/-- C8: with fewer than five command-line arguments `scale` defaults to 1;
with a fifth argument present the run's scale is exactly the result of
parsing it as a float, a malformed value (such as "abc") failing the run;
a well-formed value such as "2.5" parses to the rational 5/2. -/
theorem scale_default_and_parse :
(∀ argv : List String, argv.length < 5 → scaleOf argv = some 1) ∧
    (∀ (a b c d e : String) (rest : List String),
        scaleOf (a :: b :: c :: d :: e :: rest) = pyFloat e) ∧
    pyFloat "abc" = none ∧ pyFloat "2.5" = some (5 / 2) := by
  refine ⟨fun argv h => ?_, fun a b c d e rest => ?_, by decide, ?_⟩
  · unfold scaleOf
    rw [if_neg (by omega)]
  · unfold scaleOf
    rw [if_pos (by simp)]
    simp [List.getD]
  · have h : stripWs "2.5".data = ['2', '.', '5'] := by decide
    rw [pyFloat, h]
    simp +decide [pyFloatMantissa, digitsVal, digitVal]
    norm_num

theorem scale_default_and_parse_witness :
scaleOf ["events.txt", "level.png", "640", "480"] = some 1 :=
  scale_default_and_parse.1 ["events.txt", "level.png", "640", "480"] (by decide)

/-! ### C4: coordinate parsing -/

theorem digit_not_ws (c : Char) (h : c.isDigit = true) : c.isWhitespace = false := by
  by_contra hw
  rw [Bool.not_eq_false] at hw
  have hd : ((c = ' ' ∨ c = '\t') ∨ c = '\x0d') ∨ c = '\n' := by
    simpa [Char.isWhitespace] using hw
  rcases hd with ((h1 | h1) | h1) | h1 <;> subst h1 <;> exact absurd h (by decide)

theorem dropLeadingWs_of_no_ws (l : List Char)
(h : ∀ c ∈ l, c.isWhitespace = false) : dropLeadingWs l = l := by
  cases l with
  | nil => rfl
  | cons c cs =>
      have hc := h c (List.mem_cons_self c cs)
      simp [dropLeadingWs, hc]

theorem stripWs_of_no_ws (l : List Char)
(h : ∀ c ∈ l, c.isWhitespace = false) : stripWs l = l := by
  unfold stripWs
  rw [dropLeadingWs_of_no_ws l.reverse (fun c hc => h c (List.mem_reverse.mp hc)),
    List.reverse_reverse, dropLeadingWs_of_no_ws l h]

theorem mem_dropLeadingWs (l : List Char) (c : Char)
(hc : c.isWhitespace = false) (h : c ∈ l) : c ∈ dropLeadingWs l := by
  induction l with
  | nil => simp at h
  | cons a as ih =>
      by_cases ha : a.isWhitespace = true
      · rcases List.mem_cons.mp h with h1 | h1
        · subst h1; rw [ha] at hc; cases hc
        · simpa [dropLeadingWs, ha] using ih h1
      · simpa [dropLeadingWs, ha] using h

theorem mem_stripWs (l : List Char) (c : Char)
(hc : c.isWhitespace = false) (h : c ∈ l) : c ∈ stripWs l := by
  unfold stripWs
  apply mem_dropLeadingWs _ _ hc
  rw [List.mem_reverse]
  apply mem_dropLeadingWs _ _ hc
  rw [List.mem_reverse]
  exact h

theorem parseNatDigits_of_dot (l : List Char) (h : '.' ∈ l) :
parseNatDigits l = none := by
  have h1 : l.isEmpty = false := by
    cases l with
    | nil => simp at h
    | cons a as => rfl
  have h2 : l.all Char.isDigit = false := by
    by_contra hb
    rw [Bool.not_eq_false] at hb
    exact absurd (List.all_eq_true.mp hb '.' h) (by decide)
  simp [parseNatDigits, h1, h2]

theorem parseNatDigits_of_digits (cs : List Char) (hne : cs ≠ [])
(hd : cs.all Char.isDigit = true) : parseNatDigits cs = some (digitsVal cs) := by
  have h1 : cs.isEmpty = false := by
    cases cs with
    | nil => exact absurd rfl hne
    | cons a as => rfl
  simp [parseNatDigits, h1, hd]

theorem pyInt_of_dot (s : String) (h : '.' ∈ s.data) : pyInt s = none := by
  unfold pyInt
  have hmem : '.' ∈ stripWs s.data := mem_stripWs _ _ (by decide) h
  cases hs : stripWs s.data with
  | nil => rw [hs] at hmem; simp at hmem
  | cons c cs =>
      rw [hs] at hmem
      rw [pyIntChars]
      by_cases h1 : c = '-'
      · subst h1
        have hdot : '.' ∈ cs := by
          rcases List.mem_cons.mp hmem with h2 | h2
          · exact absurd h2 (by decide)
          · exact h2
        rw [if_pos rfl, parseNatDigits_of_dot cs hdot]
        rfl
      · rw [if_neg h1]
        by_cases h2 : c = '+'
        · subst h2
          have hdot : '.' ∈ cs := by
            rcases List.mem_cons.mp hmem with h3 | h3
            · exact absurd h3 (by decide)
            · exact h3
          rw [if_pos rfl, parseNatDigits_of_dot cs hdot]
          rfl
        · rw [if_neg h2, parseNatDigits_of_dot _ hmem]
          rfl

theorem no_ws_of_sign_digits (c : Char) (hc : c.isWhitespace = false)
(cs : List Char) (hd : cs.all Char.isDigit = true) :
∀ a ∈ c :: cs, a.isWhitespace = false := by
  intro a ha
  rcases List.mem_cons.mp ha with h1 | h1
  · subst h1; exact hc
  · exact digit_not_ws a (List.all_eq_true.mp hd a h1)

/-- C4 counterexample: the spec permits fractional coordinate values, but
`int("1.5")` raises `ValueError` in Python 2, so the line "1.5,-2.25" fails
coordinate parsing and the run aborts rather than parsing successfully. -/
theorem fractional_coordinate_fails :
pyInt "1.5" = none ∧ placement 100 "1.5,-2.25" = none := by decide

/-- C4 amended: signed coordinate values are permitted — an optional leading
sign followed by decimal digits parses to the signed integer value — but
fractional parts are not: any coordinate string containing a full stop fails
`int()` parsing (aborting the run). -/
theorem signed_ok_fractional_fails :
(∀ cs : List Char, cs ≠ [] → cs.all Char.isDigit = true →
      pyInt (String.mk ('-' :: cs)) = some (-(digitsVal cs : Int)) ∧
      pyInt (String.mk ('+' :: cs)) = some ((digitsVal cs : Int)) ∧
      pyInt (String.mk cs) = some ((digitsVal cs : Int))) ∧
    (∀ s : String, '.' ∈ s.data → pyInt s = none) := by
  constructor
  · intro cs hne hd
    refine ⟨?_, ?_, ?_⟩
    · show pyIntChars (stripWs ('-' :: cs)) = _
      rw [stripWs_of_no_ws _ (no_ws_of_sign_digits '-' (by decide) cs hd)]
      rw [pyIntChars, if_pos rfl, parseNatDigits_of_digits cs hne hd]
      rfl
    · show pyIntChars (stripWs ('+' :: cs)) = _
      rw [stripWs_of_no_ws _ (no_ws_of_sign_digits '+' (by decide) cs hd)]
      rw [pyIntChars, if_neg (by decide), if_pos rfl, parseNatDigits_of_digits cs hne hd]
      rfl
    · show pyIntChars (stripWs cs) = _
      cases cs with
      | nil => exact absurd rfl hne
      | cons c rest =>
          have hall := hd
          rw [List.all_cons, Bool.and_eq_true] at hall
          have hcd : c.isDigit = true := hall.1
          have hcns : c ≠ '-' := by intro he; subst he; exact absurd hcd (by decide)
          have hcnp : c ≠ '+' := by intro he; subst he; exact absurd hcd (by decide)
          rw [stripWs_of_no_ws _ (no_ws_of_sign_digits c (digit_not_ws c hcd) rest hall.2)]
          rw [pyIntChars, if_neg hcns, if_neg hcnp,
            parseNatDigits_of_digits _ (by simp) hd]
          rfl
  · exact fun s h => pyInt_of_dot s h

theorem signed_ok_fractional_fails_witness :
(pyInt (String.mk ['-', '4', '2']) = some (-(digitsVal ['4', '2'] : Int)) ∧
      pyInt (String.mk ['+', '4', '2']) = some ((digitsVal ['4', '2'] : Int)) ∧
      pyInt (String.mk ['4', '2']) = some ((digitsVal ['4', '2'] : Int))) ∧
    pyInt "7.0" = none :=
  ⟨signed_ok_fractional_fails.1 ['4', '2'] (by decide) (by decide),
   signed_ok_fractional_fails.2 "7.0" (by decide)⟩

/-! ### C2, C7: aggregation invariants -/

theorem bump_pos (m : List (String × Nat)) (k : String)
(h : ∀ p ∈ m, 1 ≤ p.2) : ∀ p ∈ bump m k, 1 ≤ p.2 := by
  induction m with
  | nil =>
      intro p hp
      simp [bump] at hp
      subst hp
      exact Nat.le_refl 1
  | cons q rest ih =>
      obtain ⟨k', v⟩ := q
      intro p hp
      by_cases he : k' = k
      · simp [bump, he] at hp
        rcases hp with h1 | h1
        · subst h1; omega
        · exact h p (List.mem_cons_of_mem _ h1)
      · simp only [bump, if_neg he] at hp
        rcases List.mem_cons.mp hp with h1 | h1
        · subst h1; exact h (k', v) (List.mem_cons_self _ _)
        · exact ih (fun q hq => h q (List.mem_cons_of_mem _ hq)) p h1

theorem maxCounts_bump (m : List (String × Nat)) (k : String) :
maxCounts (bump m k) = max (maxCounts m) (lookupCount (bump m k) k) := by
  induction m with
  | nil => simp [bump, maxCounts, lookupCount]
  | cons q rest ih =>
      obtain ⟨k', v⟩ := q
      by_cases he : k' = k
      · subst he
        simp [bump, maxCounts, lookupCount]
        omega
      · simp only [bump, if_neg he, maxCounts, lookupCount, ih]
        omega

theorem count_le_maxCounts (m : List (String × Nat)) (p : String × Nat)
(hp : p ∈ m) : p.2 ≤ maxCounts m := by
  induction m with
  | nil => simp at hp
  | cons q rest ih =>
      obtain ⟨k', v⟩ := q
      rcases List.mem_cons.mp hp with h1 | h1
      · subst h1
        simp [maxCounts]
      · calc p.2 ≤ maxCounts rest := ih h1
          _ ≤ max v (maxCounts rest) := le_max_right _ _

theorem aggStep_invariant (st : List (String × Nat) × Nat) (l : String)
(h1 : ∀ p ∈ st.1, 1 ≤ p.2) (h2 : st.2 = maxCounts st.1) :
(∀ p ∈ (aggStep st l).1, 1 ≤ p.2) ∧
      (aggStep st l).2 = maxCounts (aggStep st l).1 := by
  obtain ⟨m, M⟩ := st
  simp only at h1 h2
  constructor
  · exact bump_pos m l h1
  · show (if M < lookupCount (bump m l) l then lookupCount (bump m l) l else M) =
      maxCounts (bump m l)
    rw [maxCounts_bump, h2]
    by_cases hlt : maxCounts m < lookupCount (bump m l) l
    · rw [if_pos hlt]
      omega
    · rw [if_neg hlt]
      omega

theorem aggregate_invariant_aux (lines : List String) :
∀ st : List (String × Nat) × Nat,
      (∀ p ∈ st.1, 1 ≤ p.2) → st.2 = maxCounts st.1 →
      (∀ p ∈ (lines.foldl aggStep st).1, 1 ≤ p.2) ∧
        (lines.foldl aggStep st).2 = maxCounts (lines.foldl aggStep st).1 := by
  induction lines with
  | nil => exact fun st h1 h2 => ⟨h1, h2⟩
  | cons l ls ih =>
      intro st h1 h2
      rw [List.foldl_cons]
      obtain ⟨g1, g2⟩ := aggStep_invariant st l h1 h2
      exact ih _ g1 g2

/-- C2: at every step of the aggregation loop (hence in particular after
aggregating any event file's lines) every stored per-location count is at
least 1 and at most `maxRepetitions`, and `maxRepetitions` equals the
maximum of all stored counts. -/
theorem aggregation_invariant (pre : List String) :
(∀ p ∈ (aggregate pre).1, 1 ≤ p.2 ∧ p.2 ≤ (aggregate pre).2) ∧
      (aggregate pre).2 = maxCounts (aggregate pre).1 := by
  obtain ⟨h1, h2⟩ :=
    aggregate_invariant_aux pre ([], 0) (by simp) (by simp [maxCounts])
  refine ⟨fun p hp => ⟨h1 p hp, ?_⟩, h2⟩
  calc p.2 ≤ maxCounts (aggregate pre).1 := count_le_maxCounts _ p hp
    _ = (aggregate pre).2 := h2.symm

theorem aggregation_invariant_witness :
(1 ≤ (("a", 2) : String × Nat).2 ∧
      (("a", 2) : String × Nat).2 ≤ (aggregate ["a", "a", "b"]).2) ∧
    (aggregate ["a", "a", "b"]).2 = maxCounts (aggregate ["a", "a", "b"]).1 :=
  ⟨(aggregation_invariant ["a", "a", "b"]).1 ("a", 2) (by decide),
   (aggregation_invariant ["a", "a", "b"]).2⟩

theorem sumCounts_bump (m : List (String × Nat)) (k : String) :
sumCounts (bump m k) = sumCounts m + 1 := by
  induction m with
  | nil => simp [bump, sumCounts]
  | cons q rest ih =>
      obtain ⟨k', v⟩ := q
      by_cases he : k' = k
      · simp [bump, he, sumCounts]
        omega
      · simp only [bump, if_neg he]
        simp [sumCounts] at ih ⊢
        omega

theorem sumCounts_foldl (lines : List String) :
∀ st : List (String × Nat) × Nat,
      sumCounts (lines.foldl aggStep st).1 = sumCounts st.1 + lines.length := by
  induction lines with
  | nil => intro st; simp
  | cons l ls ih =>
      intro st
      rw [List.foldl_cons, ih]
      have : (aggStep st l).1 = bump st.1 l := rfl
      rw [this, sumCounts_bump]
      simp
      omega

/-- C7: for every input event file, the per-location occurrence counts in
the aggregated mapping sum to the total number of lines of the file. -/
theorem sum_counts_eq_line_count (s : String) :
sumCounts (aggregate (pythonLines s)).1 = (pythonLines s).length := by
  unfold aggregate
  rw [sumCounts_foldl]
  simp [sumCounts]

/-! ### C10: the raw line (terminator included) is the aggregation key -/

theorem splitLinesAux_append (cs : List Char) (h : ∀ c ∈ cs, c ≠ '\n') :
∀ (xs acc : List Char),
      splitLinesAux (cs ++ xs) acc = splitLinesAux xs (cs.reverse ++ acc) := by
  induction cs with
  | nil => intro xs acc; simp
  | cons c cs' ih =>
      intro xs acc
      have hc : ¬c = '\n' := h c (List.mem_cons_self c cs')
      simp only [List.cons_append, splitLinesAux, if_neg hc]
      show splitLinesAux (cs' ++ xs) (c :: acc) =
        splitLinesAux xs ((c :: cs').reverse ++ acc)
      rw [ih (fun a ha => h a (List.mem_cons_of_mem _ ha)) xs (c :: acc)]
      simp [List.reverse_cons, List.append_assoc]

theorem pythonLines_sandwich (t : String) (ht : t ≠ "")
(hn : ∀ c ∈ t.data, c ≠ '\n') :
pythonLines (t ++ "\n" ++ t) = [t ++ "\n", t] := by
  obtain ⟨l⟩ := t
  have hl : l ≠ [] := fun he => ht (by rw [he])
  have hn' : ∀ c ∈ l, c ≠ '\n' := hn
  unfold pythonLines
  have hdata : (String.mk l ++ "\n" ++ String.mk l).data = l ++ ('\n' :: l) := by
    simp
  rw [hdata]
  rw [splitLinesAux_append l hn' ('\n' :: l) []]
  simp only [List.append_nil]
  rw [splitLinesAux]
  rw [if_pos rfl]
  rw [List.reverse_reverse]
  have h2 := splitLinesAux_append l hn' [] []
  simp only [List.append_nil] at h2
  rw [h2]
  rw [splitLinesAux]
  rw [if_neg (by simp [hl])]
  rw [List.reverse_reverse]
  rfl

theorem aggregate_two_distinct (l1 l2 : String) (h : l1 ≠ l2) :
aggregate [l1, l2] = ([(l1, 1), (l2, 1)], 1) := by
  simp [aggregate, aggStep, bump, lookupCount, h]

/-- C10: the aggregation key is the raw input line with its terminator: a
file whose final unterminated line repeats an earlier terminated line's
coordinate text yields two distinct unique locations of count 1 each (never
one location of count 2), and the compositing loop parses and stamps each
of the two keys separately. -/
theorem raw_line_is_key :
(∀ t : String, t ≠ "" → (∀ c ∈ t.data, c ≠ '\n') →
      aggregate (pythonLines (t ++ "\n" ++ t)) = ([(t ++ "\n", 1), (t, 1)], 1)) ∧
    GenerateHeatMap "1,2\n1,2" 100 (1 / 2) =
      some [⟨-32, 67, 50⟩, ⟨-32, 67, 50⟩] := by
  constructor
  · intro t ht hn
    rw [pythonLines_sandwich t ht hn]
    apply aggregate_two_distinct
    intro he
    have hlen : (t ++ "\n").data.length = t.data.length :=
      congrArg (fun s => s.data.length) he
    simp at hlen
  · have ha : aggregate (pythonLines "1,2\n1,2") =
        ([("1,2\n", 1), ("1,2", 1)], 1) := by decide
    have hp1 : placement 100 "1,2\n" = some (-32, 67) := by decide
    have hp2 : placement 100 "1,2" = some (-32, 67) := by decide
    rw [GenerateHeatMap, ha]
    rw [compositeAll, stampOf, hp1]
    norm_num [contribution, compositeAll, stampOf, hp2]

theorem raw_line_is_key_witness :
aggregate (pythonLines ("1,2" ++ "\n" ++ "1,2")) =
      ([("1,2" ++ "\n", 1), ("1,2", 1)], 1) :=
  raw_line_is_key.1 "1,2" (by decide) (by decide)
